import Mathlib

/-!
Verification development for the ring-polymer (PIMD) integrator
`FixDPPimd` (src/REPLICA/fix_dp_pimd.cpp).

The definitions below are shallow embeddings of the source functions:
machine doubles are modelled as real numbers, the MPI process grid as
explicit per-process functions, and per-particle loops as per-coordinate
maps (every loop body acts independently on each coordinate).
-/

namespace FixDPPimd

/-- enum{physical, normal} — fictitious-mass convention (fmmode). -/
inductive Fmmode
  | physical
  | normal
deriving DecidableEq

/-- enum{baoab, obabo} — integrator splitting scheme. -/
inductive Integrator
  | baoab
  | obabo
deriving DecidableEq

/-- enum{MTTK, BZP} — barostat variant. -/
inductive Barostat
  | MTTK
  | BZP
deriving DecidableEq

/-- Scalar constants consumed by `Langevin_init` / `nmpimd_init`:
`np` replicas, timestep `dt`, `force->boltz`, `force->hplanck` (stored as
`hbar`), thermostat temperature `Lan_temp`, centroid damping time `tau`,
PILE scale factor `pilescale`, and the configured fmmode / integrator. -/
structure LanParams where
  np : ℕ
  dt : ℝ
  boltz : ℝ
  hbar : ℝ
  Lan_temp : ℝ
  tau : ℝ
  pilescale : ℝ
  fmmode : Fmmode
  integrator : Integrator

/-- Ring-polymer eigenvalues built by `nmpimd_init`:
`sin_tmp = sin(i*MY_PI/np); lam[i] = 4*sin_tmp*sin_tmp`. -/
noncomputable def lam (np : ℕ) (i : ℕ) : ℝ :=
  4 * Real.sin (i * Real.pi / np) ^ 2

/-- `KT = force->boltz * Lan_temp` in `Langevin_init`. -/
noncomputable def KT (p : LanParams) : ℝ := p.boltz * p.Lan_temp

/-- `beta = 1.0 / KT` in `Langevin_init`. -/
noncomputable def beta (p : LanParams) : ℝ := 1 / KT p

/-- `_omega_np = np / beta / hbar` in `Langevin_init`. -/
noncomputable def omega_np (p : LanParams) : ℝ := p.np / beta p / p.hbar

/-- `_omega_k[i]` built by `Langevin_init`: `_omega_np * sqrt(lam[i])` in
physical fmmode, `_omega_np` in normal fmmode. -/
noncomputable def omega_k (p : LanParams) (i : ℕ) : ℝ :=
  match p.fmmode with
  | Fmmode.physical => omega_np p * Real.sqrt (lam p.np i)
  | Fmmode.normal => omega_np p

/-- `Lan_c[i]` built by `Langevin_init`
(`cos(sqrt(lam[i]) * _omega_np_dt_half)` with
`_omega_np_dt_half = _omega_np * dt * 0.5`). -/
noncomputable def Lan_c (p : LanParams) (i : ℕ) : ℝ :=
  match p.fmmode with
  | Fmmode.physical => Real.cos (Real.sqrt (lam p.np i) * (omega_np p * p.dt * 0.5))
  | Fmmode.normal => Real.cos (omega_np p * p.dt * 0.5)

/-- `Lan_s[i]` built by `Langevin_init`. -/
noncomputable def Lan_s (p : LanParams) (i : ℕ) : ℝ :=
  match p.fmmode with
  | Fmmode.physical => Real.sin (Real.sqrt (lam p.np i) * (omega_np p * p.dt * 0.5))
  | Fmmode.normal => Real.sin (omega_np p * p.dt * 0.5)

/-- `gamma` from `Langevin_init`: `if(tau > 0) gamma = 1.0/tau; else
gamma = np/beta/hbar`. -/
noncomputable def gamma (p : LanParams) : ℝ :=
  if 0 < p.tau then 1 / p.tau else p.np / beta p / p.hbar

/-- Centroid friction coefficient `c1` from `Langevin_init`:
`exp(-gamma*0.5*dt)` for obabo, `exp(-gamma*dt)` for baoab. -/
noncomputable def c1 (p : LanParams) : ℝ :=
  match p.integrator with
  | Integrator.obabo => Real.exp (-(gamma p) * 0.5 * p.dt)
  | Integrator.baoab => Real.exp (-(gamma p) * p.dt)

/-- Centroid noise coefficient `c2 = sqrt(1.0 - c1*c1)`. -/
noncomputable def c2 (p : LanParams) : ℝ := Real.sqrt (1 - c1 p * c1 p)

/-- Per-mode relaxation times `tau_k` from `Langevin_init`:
`tau_k[0] = tau` and `tau_k[i] = 0.5 / pilescale / _omega_k[i]` for
`i >= 1`. -/
noncomputable def tau_k (p : LanParams) (i : ℕ) : ℝ :=
  if i = 0 then p.tau else 0.5 / p.pilescale / omega_k p i

/-- Per-mode friction coefficients `c1_k` from `Langevin_init`:
`c1_k[0] = c1`; for `i >= 1`, `exp(-0.5*dt/tau_k[i])` (obabo) or
`exp(-1.0*dt/tau_k[i])` (baoab). -/
noncomputable def c1_k (p : LanParams) (i : ℕ) : ℝ :=
  if i = 0 then c1 p
  else
    match p.integrator with
    | Integrator.obabo => Real.exp (-0.5 * p.dt / tau_k p i)
    | Integrator.baoab => Real.exp (-1.0 * p.dt / tau_k p i)

/-- Per-mode noise coefficients `c2_k` from `Langevin_init`:
`c2_k[0] = c2`; for `i >= 1`, `sqrt(1.0 - c1_k[i]*c1_k[i])`. -/
noncomputable def c2_k (p : LanParams) (i : ℕ) : ℝ :=
  if i = 0 then c2 p else Real.sqrt (1 - c1_k p i * c1_k p i)

/-- `dtv = 0.5 * update->dt` set in `init()` (both obabo and baoab). -/
noncomputable def dtv (p : LanParams) : ℝ := 0.5 * p.dt

/-- One coordinate of `a_step()`: on a non-centroid replica
(`universe->iworld != 0`) the pair `(x, v)` is mapped to
`(Lan_c*x + 1/_omega_k * Lan_s * v, -_omega_k * Lan_s * x + Lan_c * v)`;
the centroid replica is untouched by `a_step`. -/
noncomputable def a_step (p : LanParams) (iworld : ℕ) (xv : ℝ × ℝ) : ℝ × ℝ :=
  if iworld ≠ 0 then
    (Lan_c p iworld * xv.1 + 1 / omega_k p iworld * Lan_s p iworld * xv.2,
     -1 * omega_k p iworld * Lan_s p iworld * xv.1 + Lan_c p iworld * xv.2)
  else xv

/-- One coordinate of `qc_step()` with no barostat (`!pextflag`): the
centroid replica (`universe->iworld == 0`) free-drifts
`x += dtv * v`; other replicas are untouched. -/
noncomputable def qc_step (p : LanParams) (iworld : ℕ) (xv : ℝ × ℝ) : ℝ × ℝ :=
  if iworld = 0 then (xv.1 + dtv p * xv.2, xv.2) else xv

/-- The local `beta_np` recomputed inside `o_step()`:
`1.0 / force->boltz / Lan_temp / np * force->mvv2e`. -/
noncomputable def beta_np_o (p : LanParams) (mvv2e : ℝ) : ℝ :=
  1 / p.boltz / p.Lan_temp / p.np * mvv2e

/-- One velocity component of `o_step()` under the PILE_L thermostat for
one local particle of mass `m`, with standard-normal draw `xi`:
`v = c1_k[iworld]*v + c2_k[iworld]*sqrt(1.0/mass/beta_np)*xi`. -/
noncomputable def o_step (p : LanParams) (mvv2e : ℝ) (iworld : ℕ)
    (m v xi : ℝ) : ℝ :=
  c1_k p iworld * v + c2_k p iworld * Real.sqrt (1 / m / beta_np_o p mvv2e) * xi

/-- The forward normal-mode matrix `M_x2xp` built by `nmpimd_init`:
the two eigenvector loops fill row `i` of column `j` with
`sqrt(2)*cos(2*MY_PI*i*j/np)/sqrt(np)` for `1 <= i < int(np/2)+1` and
`sqrt(2)*sin(2*MY_PI*i*j/np)/sqrt(np)` for `int(np/2)+1 <= i < np`;
afterwards row 0 is overwritten with `1/sqrt(np)` and — when `np` is
even — row `np/2` with `1/sqrt(np) * pow(-1.0, j)`. -/
noncomputable def M_x2xp (np : ℕ) : Matrix (Fin np) (Fin np) ℝ :=
  fun i j =>
    if (i : ℕ) = 0 then 1 / Real.sqrt np
    else if 2 * (i : ℕ) = np then 1 / Real.sqrt np * (-1) ^ (j : ℕ)
    else if (i : ℕ) < np / 2 + 1 then
      Real.sqrt 2 * Real.cos (2 * Real.pi * i * j / np) / Real.sqrt np
    else
      Real.sqrt 2 * Real.sin (2 * Real.pi * i * j / np) / Real.sqrt np

/-- The inverse normal-mode matrix: `M_xp2x[i][j] = M_x2xp[j][i]`. -/
noncomputable def M_xp2x (np : ℕ) : Matrix (Fin np) (Fin np) ℝ :=
  fun i j => M_x2xp np j i

/-- One coordinate of `nmpimd_transform(src, des, vector)`:
`des[i][d] = sum_j src[j][3*i+d] * vector[j]`.  Here `src` is the value
of that coordinate on each of the `np` replicas. -/
noncomputable def nmpimd_transform (np : ℕ) (src : Fin np → ℝ)
    (vector : Fin np → ℝ) : ℝ :=
  ∑ j, src j * vector j

/-- The distributed forward transform: replica `k` computes
`nmpimd_transform(buf_beads, x, M_x2xp[k])`, i.e. the dot product of the
bead values with its own forward-matrix row. -/
noncomputable def forward_transform (np : ℕ) (x : Fin np → ℝ) : Fin np → ℝ :=
  fun k => nmpimd_transform np x (fun j => M_x2xp np k j)

/-- The distributed inverse transform: replica `k` computes
`nmpimd_transform(buf_beads, x, M_xp2x[k])`. -/
noncomputable def inverse_transform (np : ℕ) (x : Fin np → ℝ) : Fin np → ℝ :=
  fun k => nmpimd_transform np x (fun j => M_xp2x np k j)

/-!  Barostat coupling (`press_v_step`, `press_o_step`).  The process
grid has `np` replicas with `nprocs` spatial shards each; a process is a
pair (replica index `iworld`, within-replica rank).  `MPI_Bcast` from
rank 0 of `universe->uworld` delivers the value held by process
(iworld 0, rank 0) to everybody. -/

/-- A process of the `np × nprocs` grid: replica index and
within-replica rank. -/
structure Proc where
  iworld : ℕ
  rank : ℕ
deriving DecidableEq

/-- Inputs of `press_v_step` in the BZP branch.  `fdata r` lists, for
shard `r` of the centroid replica, one entry `(f, v, m)` per local
particle coordinate. -/
structure PressCfg where
  np : ℕ
  nprocs : ℕ
  dt : ℝ
  ftm2v : ℝ
  W : ℝ
  Pext : ℝ
  nktv2p : ℝ
  Vcoeff : ℝ
  beta_np : ℝ
  p_cv : ℝ
  volume : ℝ
  vw : ℝ
  fdata : ℕ → List (ℝ × ℝ × ℝ)

/-- `dtv = 0.5 * update->dt` (from `init()`), for the barostat step. -/
noncomputable def pdtv (c : PressCfg) : ℝ := 0.5 * c.dt

/-- `dtv2 = dtv * dtv` (from `init()`). -/
noncomputable def pdtv2 (c : PressCfg) : ℝ := pdtv c * pdtv c

/-- `dtv3 = 1./3 * dtv2 * dtv * force->ftm2v` (from `init()`). -/
noncomputable def pdtv3 (c : PressCfg) : ℝ := 1 / 3 * pdtv2 c * pdtv c * c.ftm2v

/-- The local accumulation `dvw_proc` of one shard of the centroid
replica inside `press_v_step`:
`dvw_proc += dtv2*f[i][j]*v[i][j]/W + dtv3*f[i][j]*f[i][j]/mass/W`. -/
noncomputable def dvw_proc (c : PressCfg) (r : ℕ) : ℝ :=
  ((c.fdata r).map (fun e => pdtv2 c * e.1 * e.2.1 / c.W +
      pdtv3 c * e.1 * e.1 / e.2.2 / c.W)).sum

/-- The `MPI_Allreduce` of `dvw_proc` over the centroid replica's world
communicator: the sum over its `nprocs` shards. -/
noncomputable def dvw (c : PressCfg) : ℝ :=
  ∑ r ∈ Finset.range c.nprocs, dvw_proc c r

/-- The first update of `press_v_step` (BZP), executed by every process:
`vw += dtv * 3 * (volume*np*(p_cv-Pext)/nktv2p + Vcoeff/beta_np) / W`. -/
noncomputable def vw_after_kin (c : PressCfg) : ℝ :=
  c.vw + pdtv c * 3 * (c.volume * c.np * (c.p_cv - c.Pext) / c.nktv2p +
    c.Vcoeff / c.beta_np) / c.W

/-- The per-process value of `vw` after the force-dependent correction,
which only processes of the centroid replica (`universe->iworld == 0`)
accumulate and Allreduce over their own world. -/
noncomputable def vw_before_bcast (c : PressCfg) (p : Proc) : ℝ :=
  if p.iworld = 0 then vw_after_kin c + dvw c else vw_after_kin c

/-- `MPI_Bcast(&vw, 1, MPI_DOUBLE, 0, universe->uworld)`: every process
receives the value held by global rank 0, i.e. (iworld 0, rank 0). -/
noncomputable def bcast_root (f : Proc → ℝ) : Proc → ℝ :=
  fun _ => f ⟨0, 0⟩

/-- The piston velocity held by each process after `press_v_step`
(BZP branch): the update, the centroid-only correction, and the final
broadcast. -/
noncomputable def press_v_step (c : PressCfg) : Proc → ℝ :=
  bcast_root (vw_before_bcast c)

/-- `press_o_step`: only `universe->me == 0` (process (0,0)) updates
`vw = c1*vw + c2*sqrt(1./W/beta_np)*r1`, then `vw` is broadcast. -/
noncomputable def press_o_step (c : PressCfg) (c1v c2v r1 : ℝ) : Proc → ℝ :=
  bcast_root (fun p => if p = ⟨0, 0⟩ then
    c1v * c.vw + c2v * Real.sqrt (1 / c.W / c.beta_np) * r1 else c.vw)

/-!  Center-of-mass removal. -/

/-- Parsing of the `fixcom` keyword in the constructor (lines 213–217):
`"no"` sets `removecomflag = 1`, `"yes"` sets `removecomflag = 0`, and
any other value leaves the flag unchanged. -/
def fixcom_parse (value : String) (removecomflag : ℕ) : ℕ :=
  if value = "no" then 1 else if value = "yes" then 0 else removecomflag

/-- One velocity component of `remove_com_motion()`: only the centroid
replica (`universe->iworld == 0`) subtracts the group center-of-mass
velocity `vcm` from every group particle. -/
def remove_com_motion (iworld : ℕ) (vcm : ℝ) (v : List ℝ) : List ℝ :=
  if iworld = 0 then v.map (fun vi => vi - vcm) else v

/-- The guarded call site used throughout `initial_integrate` /
`final_integrate`: `if(removecomflag) remove_com_motion();`. -/
def com_substep (removecomflag : ℕ) (iworld : ℕ) (vcm : ℝ)
    (v : List ℝ) : List ℝ :=
  if removecomflag ≠ 0 then remove_com_motion iworld vcm v else v

/-!  Bead exchange (`comm_exec`).  Data is moved by particle id, so the
embedding is generic in the transported value type.  Replica `u` holds
its particles partitioned over shards; the requester looks every local
tag up in each peer shard of `u` and overwrites the slot of the bead
buffer `buf_beads[u]` for every match.  Unmatched tags are never
written, so their slots keep the previous buffer content. -/

/-- Association-list lookup by particle tag (the peer's `atom->map`
search over its own particles). -/
def alookup {α : Type} : List (ℕ × α) → ℕ → Option α
  | [], _ => none
  | (t, v) :: rest, s => if t = s then some v else alookup rest s

/-- One invocation of `comm_exec` seen from one requesting process:
`me` is its replica, `own` its local particles as (tag, value) pairs in
slot order, `remote u` the shards of replica `u` (each a (tag, value)
list), and `stale u i` the content `buf_beads[u][i]` had before the
call. -/
structure ExchCfg (α : Type) where
  np : ℕ
  me : ℕ
  own : List (ℕ × α)
  remote : ℕ → List (List (ℕ × α))
  stale : ℕ → ℕ → α

/-- The bead buffer produced by `comm_exec`: slot `i` of replica `u`.
Own values are copied directly (`memcpy` of the local array); for a
remote replica, a slot is overwritten only when some peer shard matched
its tag, otherwise it keeps the previous (stale) content — the source
contains no error path for an unmatched tag. -/
def comm_exec {α : Type} (c : ExchCfg α) (u i : ℕ) : α :=
  if u = c.me then
    match c.own.get? i with
    | some tv => tv.2
    | none => c.stale u i
  else
    match c.own.get? i with
    | none => c.stale u i
    | some tv =>
      match alookup (c.remote u).flatten tv.1 with
      | some v => v
      | none => c.stale u i

/-!  Energy outputs. -/

/-- `compute_tote()`: `tote = totke + pote + total_spring_energy`. -/
noncomputable def compute_tote (totke pote total_spring_energy : ℝ) : ℝ :=
  totke + pote + total_spring_energy

/-- `compute_totenthalpy()`:
BZP: `tote + 0.5*W*vw*vw/np + Pext*volume/nktv2p - Vcoeff*kBT*log(volume)`;
MTTK: `tote + 1.5*W*vw*vw/np + Pext*(volume - vol0)`. -/
noncomputable def compute_totenthalpy (b : Barostat) (tote W vw : ℝ)
    (np : ℕ) (Pext volume nktv2p Vcoeff kBT vol0 : ℝ) : ℝ :=
  match b with
  | Barostat.BZP =>
      tote + 0.5 * W * vw * vw / np + Pext * volume / nktv2p -
        Vcoeff * kBT * Real.log volume
  | Barostat.MTTK =>
      tote + 1.5 * W * vw * vw / np + Pext * (volume - vol0)

/-!  Trigonometric sum toolkit for the orthonormality of `M_x2xp`. -/

lemma exp_term_eq_pow (P : ℕ) (m : ℤ) (j : ℕ) :
    Complex.exp (2 * Real.pi * Complex.I * m * j / P)
      = Complex.exp (2 * Real.pi * Complex.I * m / P) ^ j := by
  rw [← Complex.exp_nat_mul]
  congr 1
  ring

lemma sum_exp_eq (P : ℕ) (hP : 0 < P) (m : ℤ) :
    ∑ j ∈ Finset.range P, Complex.exp (2 * Real.pi * Complex.I * m * j / P)
      = if (P : ℤ) ∣ m then (P : ℂ) else 0 := by
  have hPC : (P : ℂ) ≠ 0 := Nat.cast_ne_zero.mpr hP.ne'
  by_cases hdvd : (P : ℤ) ∣ m
  · obtain ⟨t, ht⟩ := hdvd
    have hone : ∀ j ∈ Finset.range P,
        Complex.exp (2 * Real.pi * Complex.I * m * j / P) = 1 := by
      intro j _
      have harg : (2 * (Real.pi : ℂ) * Complex.I * m * j / P)
          = ((t * j : ℤ) : ℂ) * (2 * Real.pi * Complex.I) := by
        push_cast [ht]
        field_simp
        ring
      rw [harg, Complex.exp_int_mul_two_pi_mul_I]
    rw [Finset.sum_congr rfl hone, if_pos ⟨t, ht⟩]
    simp
  · have hpow : ∀ j ∈ Finset.range P,
        Complex.exp (2 * Real.pi * Complex.I * m * j / P)
          = Complex.exp (2 * Real.pi * Complex.I * m / P) ^ j := by
      intro j _
      exact exp_term_eq_pow P m j
    rw [Finset.sum_congr rfl hpow, if_neg hdvd]
    have hz1 : Complex.exp (2 * Real.pi * Complex.I * m / P) ≠ 1 := by
      intro h
      rw [Complex.exp_eq_one_iff] at h
      obtain ⟨n, hn⟩ := h
      have h2 : (m : ℂ) * (2 * Real.pi * Complex.I)
          = ((n * P : ℤ) : ℂ) * (2 * Real.pi * Complex.I) := by
        field_simp at hn
        push_cast
        linear_combination hn
      have hne : (2 * (Real.pi : ℂ) * Complex.I) ≠ 0 := by
        have hpi : ((Real.pi : ℝ) : ℂ) ≠ 0 := by
          exact_mod_cast Real.pi_ne_zero
        exact mul_ne_zero (mul_ne_zero two_ne_zero hpi) Complex.I_ne_zero
      have h3 : (m : ℂ) = ((n * P : ℤ) : ℂ) := mul_right_cancel₀ hne h2
      have h4 : m = n * P := by exact_mod_cast h3
      exact hdvd ⟨n, by rw [h4]; ring⟩
    rw [geom_sum_eq hz1]
    have hzP : Complex.exp (2 * Real.pi * Complex.I * m / P) ^ P = 1 := by
      rw [← Complex.exp_nat_mul]
      have harg : (P : ℂ) * (2 * Real.pi * Complex.I * m / P)
          = (m : ℂ) * (2 * Real.pi * Complex.I) := by
        field_simp
        ring
      rw [harg, Complex.exp_int_mul_two_pi_mul_I]
    rw [hzP]
    simp

lemma sum_cos_eq (P : ℕ) (hP : 0 < P) (m : ℤ) :
    ∑ j ∈ Finset.range P, Real.cos (2 * Real.pi * m * j / P)
      = if (P : ℤ) ∣ m then (P : ℝ) else 0 := by
  have hre : ∀ j ∈ Finset.range P,
      Real.cos (2 * Real.pi * m * j / P)
        = (Complex.exp (2 * Real.pi * Complex.I * m * j / P)).re := by
    intro j _
    have harg : (2 * (Real.pi : ℂ) * Complex.I * m * j / P)
        = ((2 * Real.pi * m * j / P : ℝ) : ℂ) * Complex.I := by
      push_cast
      ring
    rw [harg, Complex.exp_ofReal_mul_I_re]
  rw [Finset.sum_congr rfl hre, ← Complex.re_sum, sum_exp_eq P hP m]
  by_cases hdvd : (P : ℤ) ∣ m
  · rw [if_pos hdvd, if_pos hdvd]
    simp
  · rw [if_neg hdvd, if_neg hdvd]
    simp

lemma sum_sin_eq (P : ℕ) (hP : 0 < P) (m : ℤ) :
    ∑ j ∈ Finset.range P, Real.sin (2 * Real.pi * m * j / P) = 0 := by
  have him : ∀ j ∈ Finset.range P,
      Real.sin (2 * Real.pi * m * j / P)
        = (Complex.exp (2 * Real.pi * Complex.I * m * j / P)).im := by
    intro j _
    have harg : (2 * (Real.pi : ℂ) * Complex.I * m * j / P)
        = ((2 * Real.pi * m * j / P : ℝ) : ℂ) * Complex.I := by
      push_cast
      ring
    rw [harg, Complex.exp_ofReal_mul_I_im]
  rw [Finset.sum_congr rfl him, ← Complex.im_sum, sum_exp_eq P hP m]
  by_cases hdvd : (P : ℤ) ∣ m
  · rw [if_pos hdvd]
    simp
  · rw [if_neg hdvd]
    simp

lemma trig_product_identity (a b c d θ₁ θ₂ : ℝ) :
    (a * Real.cos θ₁ + b * Real.sin θ₁) * (c * Real.cos θ₂ + d * Real.sin θ₂)
      = a * c * ((Real.cos (θ₁ - θ₂) + Real.cos (θ₁ + θ₂)) / 2)
        + b * d * ((Real.cos (θ₁ - θ₂) - Real.cos (θ₁ + θ₂)) / 2)
        + a * d * ((Real.sin (θ₁ + θ₂) - Real.sin (θ₁ - θ₂)) / 2)
        + b * c * ((Real.sin (θ₁ + θ₂) + Real.sin (θ₁ - θ₂)) / 2) := by
  rw [Real.cos_sub, Real.cos_add, Real.sin_add, Real.sin_sub]
  ring

/-- Cosine coefficient of row `k` of `M_x2xp` (helper for the
orthonormality proof). -/
noncomputable def rowA (P k : ℕ) : ℝ :=
  if k = 0 then 1 / Real.sqrt P
  else if 2 * k = P then 1 / Real.sqrt P
  else if k < P / 2 + 1 then Real.sqrt 2 / Real.sqrt P
  else 0

/-- Sine coefficient of row `k` of `M_x2xp` (helper for the
orthonormality proof). -/
noncomputable def rowB (P k : ℕ) : ℝ :=
  if k = 0 then 0
  else if 2 * k = P then 0
  else if k < P / 2 + 1 then 0
  else Real.sqrt 2 / Real.sqrt P

lemma cos_nat_mul_pi (j : ℕ) : Real.cos (j * Real.pi) = (-1) ^ j := by
  have h := Real.cos_nat_mul_pi_sub 0 j
  simpa using h

lemma M_x2xp_eq_rowAB (P : ℕ) (k j : Fin P) :
    M_x2xp P k j
      = rowA P (k : ℕ) * Real.cos (2 * Real.pi * (k : ℕ) * (j : ℕ) / P)
        + rowB P (k : ℕ) * Real.sin (2 * Real.pi * (k : ℕ) * (j : ℕ) / P) := by
  have hP : 0 < P := k.pos
  unfold M_x2xp rowA rowB
  by_cases h0 : (k : ℕ) = 0
  · rw [if_pos h0, if_pos h0, if_pos h0, h0]
    push_cast
    simp
  · rw [if_neg h0, if_neg h0, if_neg h0]
    by_cases h2 : 2 * (k : ℕ) = P
    · rw [if_pos h2, if_pos h2, if_pos h2]
      have harg : 2 * Real.pi * (k : ℕ) * (j : ℕ) / P = (j : ℕ) * Real.pi := by
        have hcast : (2 : ℝ) * (k : ℕ) = P := by exact_mod_cast h2
        have hk : ((k : ℕ) : ℝ) ≠ 0 := Nat.cast_ne_zero.mpr h0
        rw [← hcast]
        field_simp
        ring
      rw [harg, cos_nat_mul_pi]
      ring
    · rw [if_neg h2, if_neg h2, if_neg h2]
      by_cases hc : (k : ℕ) < P / 2 + 1
      · rw [if_pos hc, if_pos hc, if_pos hc]
        ring
      · rw [if_neg hc, if_neg hc, if_neg hc]
        ring

/-- The `j`-th cosine sample at integer frequency `m` (helper). -/
noncomputable def cosTerm (P : ℕ) (m : ℤ) (j : ℕ) : ℝ :=
  Real.cos (2 * Real.pi * m * j / P)

/-- The `j`-th sine sample at integer frequency `m` (helper). -/
noncomputable def sinTerm (P : ℕ) (m : ℤ) (j : ℕ) : ℝ :=
  Real.sin (2 * Real.pi * m * j / P)

lemma sum_cosTerm (P : ℕ) (hP : 0 < P) (m : ℤ) :
    ∑ j ∈ Finset.range P, cosTerm P m j
      = if (P : ℤ) ∣ m then (P : ℝ) else 0 := by
  simp only [cosTerm]
  exact sum_cos_eq P hP m

lemma sum_sinTerm (P : ℕ) (hP : 0 < P) (m : ℤ) :
    ∑ j ∈ Finset.range P, sinTerm P m j = 0 := by
  simp only [sinTerm]
  exact sum_sin_eq P hP m

/-- The one-pair summand of the row dot product, already in
sum-of-angles form (helper). -/
noncomputable def dotSummand (P : ℕ) (k l : ℕ) (j : ℕ) : ℝ :=
  rowA P k * rowA P l *
      ((cosTerm P ((k : ℤ) - (l : ℤ)) j + cosTerm P ((k : ℤ) + (l : ℤ)) j) / 2)
    + rowB P k * rowB P l *
      ((cosTerm P ((k : ℤ) - (l : ℤ)) j - cosTerm P ((k : ℤ) + (l : ℤ)) j) / 2)
    + rowA P k * rowB P l *
      ((sinTerm P ((k : ℤ) + (l : ℤ)) j - sinTerm P ((k : ℤ) - (l : ℤ)) j) / 2)
    + rowB P k * rowA P l *
      ((sinTerm P ((k : ℤ) + (l : ℤ)) j + sinTerm P ((k : ℤ) - (l : ℤ)) j) / 2)

lemma dot_formula (P : ℕ) (k l : Fin P) :
    ∑ j : Fin P, M_x2xp P k j * M_x2xp P l j
      = rowA P (k : ℕ) * rowA P (l : ℕ) *
          (((if (P : ℤ) ∣ ((k : ℕ) : ℤ) - ((l : ℕ) : ℤ) then (P : ℝ) else 0)
            + (if (P : ℤ) ∣ ((k : ℕ) : ℤ) + ((l : ℕ) : ℤ) then (P : ℝ) else 0)) / 2)
        + rowB P (k : ℕ) * rowB P (l : ℕ) *
          (((if (P : ℤ) ∣ ((k : ℕ) : ℤ) - ((l : ℕ) : ℤ) then (P : ℝ) else 0)
            - (if (P : ℤ) ∣ ((k : ℕ) : ℤ) + ((l : ℕ) : ℤ) then (P : ℝ) else 0)) / 2) := by
  have hP : 0 < P := k.pos
  have hstep : ∀ j : Fin P, M_x2xp P k j * M_x2xp P l j
      = dotSummand P (k : ℕ) (l : ℕ) (j : ℕ) := by
    intro j
    unfold dotSummand cosTerm sinTerm
    rw [M_x2xp_eq_rowAB P k j, M_x2xp_eq_rowAB P l j, trig_product_identity]
    have hm : 2 * Real.pi * (k : ℕ) * (j : ℕ) / P - 2 * Real.pi * (l : ℕ) * (j : ℕ) / P
        = 2 * Real.pi * ((((k : ℕ) : ℤ) - ((l : ℕ) : ℤ) : ℤ) : ℝ) * (j : ℕ) / P := by
      push_cast
      ring
    have hp2 : 2 * Real.pi * (k : ℕ) * (j : ℕ) / P + 2 * Real.pi * (l : ℕ) * (j : ℕ) / P
        = 2 * Real.pi * ((((k : ℕ) : ℤ) + ((l : ℕ) : ℤ) : ℤ) : ℝ) * (j : ℕ) / P := by
      push_cast
      ring
    rw [hm, hp2]
  rw [Finset.sum_congr rfl (fun j _ => hstep j),
    Fin.sum_univ_eq_sum_range (dotSummand P (k : ℕ) (l : ℕ)) P]
  unfold dotSummand
  rw [Finset.sum_add_distrib, Finset.sum_add_distrib, Finset.sum_add_distrib]
  rw [← Finset.mul_sum, ← Finset.mul_sum, ← Finset.mul_sum, ← Finset.mul_sum]
  rw [← Finset.sum_div, ← Finset.sum_div, ← Finset.sum_div, ← Finset.sum_div]
  rw [Finset.sum_add_distrib, Finset.sum_add_distrib, Finset.sum_sub_distrib,
    Finset.sum_sub_distrib]
  rw [sum_cosTerm P hP (((k : ℕ) : ℤ) - ((l : ℕ) : ℤ)),
    sum_cosTerm P hP (((k : ℕ) : ℤ) + ((l : ℕ) : ℤ)),
    sum_sinTerm P hP (((k : ℕ) : ℤ) - ((l : ℕ) : ℤ)),
    sum_sinTerm P hP (((k : ℕ) : ℤ) + ((l : ℕ) : ℤ))]
  ring

lemma not_dvd_small {P : ℕ} {m : ℤ} (hne : m ≠ 0) (habs : m.natAbs < P) :
    ¬ (P : ℤ) ∣ m := by
  intro hdvd
  exact hne (Int.eq_zero_of_dvd_of_natAbs_lt_natAbs hdvd (by omega))

lemma not_dvd_between {P : ℕ} {m : ℤ} (h1 : (P : ℤ) < m) (h2 : m < 2 * P) :
    ¬ (P : ℤ) ∣ m := by
  intro hdvd
  have h3 : (P : ℤ) ∣ m - P := Dvd.dvd.sub hdvd dvd_rfl
  have h4 : m - P = 0 := Int.eq_zero_of_dvd_of_natAbs_lt_natAbs h3 (by omega)
  omega

lemma rowA_zero_val (P : ℕ) : rowA P 0 = 1 / Real.sqrt P := by
  simp [rowA]

lemma rowB_zero_val (P : ℕ) : rowB P 0 = 0 := by
  simp [rowB]

lemma rowA_alt_val (P k : ℕ) (h0 : k ≠ 0) (h2 : 2 * k = P) :
    rowA P k = 1 / Real.sqrt P := by
  simp [rowA, h0, h2]

lemma rowB_alt_val (P k : ℕ) (h0 : k ≠ 0) (h2 : 2 * k = P) :
    rowB P k = 0 := by
  simp [rowB, h0, h2]

lemma rowA_cos_val (P k : ℕ) (h0 : k ≠ 0) (h2 : 2 * k ≠ P)
    (hc : k < P / 2 + 1) : rowA P k = Real.sqrt 2 / Real.sqrt P := by
  simp [rowA, h0, h2, hc]

lemma rowB_cos_val (P k : ℕ) (h0 : k ≠ 0) (h2 : 2 * k ≠ P)
    (hc : k < P / 2 + 1) : rowB P k = 0 := by
  simp [rowB, h0, h2, hc]

lemma rowA_sin_val (P k : ℕ) (h0 : k ≠ 0) (h2 : 2 * k ≠ P)
    (hc : ¬ k < P / 2 + 1) : rowA P k = 0 := by
  simp [rowA, h0, h2, hc]

lemma rowB_sin_val (P k : ℕ) (h0 : k ≠ 0) (h2 : 2 * k ≠ P)
    (hc : ¬ k < P / 2 + 1) : rowB P k = Real.sqrt 2 / Real.sqrt P := by
  simp [rowB, h0, h2, hc]

lemma dot_eq_ite (P : ℕ) (k l : Fin P) :
    ∑ j : Fin P, M_x2xp P k j * M_x2xp P l j = if k = l then 1 else 0 := by
  have hP : 0 < P := k.pos
  have hPR : (0 : ℝ) < P := by exact_mod_cast hP
  have hsPne : Real.sqrt P ≠ 0 := by
    have := Real.sqrt_pos.mpr hPR
    linarith
  have hsP : Real.sqrt P * Real.sqrt P = P := Real.mul_self_sqrt (le_of_lt hPR)
  have hs2 : Real.sqrt 2 * Real.sqrt 2 = 2 := Real.mul_self_sqrt (by norm_num)
  have hk := k.isLt
  have hl := l.isLt
  rw [dot_formula]
  by_cases hkl : k = l
  · subst hkl
    rw [if_pos rfl]
    have hd0 : (P : ℤ) ∣ ((k : ℕ) : ℤ) - ((k : ℕ) : ℤ) := by simp
    rw [if_pos hd0]
    by_cases h0 : (k : ℕ) = 0
    · have hd2 : (P : ℤ) ∣ ((k : ℕ) : ℤ) + ((k : ℕ) : ℤ) := by
        rw [h0]
        simp
      rw [if_pos hd2, h0, rowA_zero_val, rowB_zero_val]
      field_simp
    · by_cases h2 : 2 * (k : ℕ) = P
      · have hd2 : (P : ℤ) ∣ ((k : ℕ) : ℤ) + ((k : ℕ) : ℤ) := by
          refine ⟨1, ?_⟩
          omega
        rw [if_pos hd2, rowA_alt_val P (k : ℕ) h0 h2, rowB_alt_val P (k : ℕ) h0 h2]
        field_simp
      · by_cases hc : (k : ℕ) < P / 2 + 1
        · have hd2 : ¬ (P : ℤ) ∣ ((k : ℕ) : ℤ) + ((k : ℕ) : ℤ) :=
            not_dvd_small (by omega) (by omega)
          rw [if_neg hd2, rowA_cos_val P (k : ℕ) h0 h2 hc,
            rowB_cos_val P (k : ℕ) h0 h2 hc]
          field_simp
        · have hd2 : ¬ (P : ℤ) ∣ ((k : ℕ) : ℤ) + ((k : ℕ) : ℤ) :=
            not_dvd_between (by omega) (by omega)
          rw [if_neg hd2, rowA_sin_val P (k : ℕ) h0 h2 hc,
            rowB_sin_val P (k : ℕ) h0 h2 hc]
          field_simp
  · rw [if_neg hkl]
    have hklv : (k : ℕ) ≠ (l : ℕ) := fun h => hkl (Fin.ext h)
    have hd1 : ¬ (P : ℤ) ∣ ((k : ℕ) : ℤ) - ((l : ℕ) : ℤ) :=
      not_dvd_small (by omega) (by omega)
    rw [if_neg hd1]
    by_cases hd2 : (P : ℤ) ∣ ((k : ℕ) : ℤ) + ((l : ℕ) : ℤ)
    · rw [if_pos hd2]
      have hsum : (k : ℕ) + (l : ℕ) = P := by
        have hpos : (0 : ℤ) < ((k : ℕ) : ℤ) + ((l : ℕ) : ℤ) := by omega
        have hle := Int.le_of_dvd hpos hd2
        have hzero : (((k : ℕ) : ℤ) + ((l : ℕ) : ℤ)) - P = 0 := by
          refine Int.eq_zero_of_dvd_of_natAbs_lt_natAbs (Dvd.dvd.sub hd2 dvd_rfl) ?_
          omega
        omega
      have hk0 : (k : ℕ) ≠ 0 := by omega
      have hl0 : (l : ℕ) ≠ 0 := by omega
      have hk2 : 2 * (k : ℕ) ≠ P := by omega
      have hl2 : 2 * (l : ℕ) ≠ P := by omega
      rcases lt_or_gt_of_ne (show 2 * (k : ℕ) ≠ 2 * (l : ℕ) by omega) with hlt | hgt
      · have hkc : (k : ℕ) < P / 2 + 1 := by omega
        have hlc : ¬ (l : ℕ) < P / 2 + 1 := by omega
        rw [rowB_cos_val P (k : ℕ) hk0 hk2 hkc, rowA_sin_val P (l : ℕ) hl0 hl2 hlc]
        ring
      · have hkc : ¬ (k : ℕ) < P / 2 + 1 := by omega
        have hlc : (l : ℕ) < P / 2 + 1 := by omega
        rw [rowA_sin_val P (k : ℕ) hk0 hk2 hkc, rowB_cos_val P (l : ℕ) hl0 hl2 hlc]
        ring
    · rw [if_neg hd2]
      ring

/-- Rows of the forward matrix are pairwise orthonormal:
`M_x2xp * M_x2xpᵀ = 1`. -/
lemma M_mul_transpose_eq_one (P : ℕ) :
    M_x2xp P * Matrix.transpose (M_x2xp P) = 1 := by
  ext k l
  rw [Matrix.mul_apply]
  simp only [Matrix.transpose_apply]
  rw [dot_eq_ite P k l, Matrix.one_apply]

lemma transpose_mul_M_eq_one (P : ℕ) :
    Matrix.transpose (M_x2xp P) * M_x2xp P = 1 :=
  Matrix.mul_eq_one_comm.mp (M_mul_transpose_eq_one P)

lemma forward_transform_eq_mulVec (P : ℕ) (x : Fin P → ℝ) :
    forward_transform P x = Matrix.mulVec (M_x2xp P) x := by
  funext k
  simp only [forward_transform, nmpimd_transform, Matrix.mulVec, Matrix.dotProduct]
  exact Finset.sum_congr rfl (fun j _ => mul_comm _ _)

lemma inverse_transform_eq_mulVec (P : ℕ) (y : Fin P → ℝ) :
    inverse_transform P y = Matrix.mulVec (Matrix.transpose (M_x2xp P)) y := by
  funext k
  simp only [inverse_transform, nmpimd_transform, M_xp2x, Matrix.mulVec,
    Matrix.dotProduct, Matrix.transpose_apply]
  exact Finset.sum_congr rfl (fun j _ => mul_comm _ _)

/-- C2: for every P ≥ 2 and every per-replica vector, applying the
forward normal-mode transform (each replica dotting the bead values with
its own `M_x2xp` row) and then the inverse transform (rows of `M_xp2x`,
the transpose) returns the original vector exactly; moreover the rows of
the forward matrix built by `nmpimd_init` are pairwise orthonormal
(`M_x2xp * M_x2xpᵀ = 1`). -/
theorem C2_transform_roundtrip (P : ℕ) (_hP : 2 ≤ P) (x : Fin P → ℝ) :
    inverse_transform P (forward_transform P x) = x ∧
      M_x2xp P * Matrix.transpose (M_x2xp P) = 1 := by
  refine ⟨?_, M_mul_transpose_eq_one P⟩
  rw [forward_transform_eq_mulVec, inverse_transform_eq_mulVec,
    Matrix.mulVec_mulVec, transpose_mul_M_eq_one, Matrix.one_mulVec]

/-- Witness for C2 at P = 4 and the vector (1, 2, 3, 4). -/
theorem C2_transform_roundtrip_witness :
    inverse_transform 4 (forward_transform 4 ![1, 2, 3, 4]) = ![1, 2, 3, 4] ∧
      M_x2xp 4 * Matrix.transpose (M_x2xp 4) = 1 :=
  C2_transform_roundtrip 4 (by norm_num) ![1, 2, 3, 4]

/-- C3: `nmpimd_init` produces eigenvalues λ_k = 4·sin²(kπ/P) (hence
λ_0 = 0, and λ_{P/2} = 4 for even P), a forward matrix with constant
row 0 = 1/√P, alternating row P/2 = (1/√P)·(−1)^j for even P, cosine
rows √(2/P)·cos(2πkj/P) for 1 ≤ k < P/2 and sine rows
√(2/P)·sin(2πkj/P) for P/2 < k < P, and an inverse matrix equal to the
transpose of the forward matrix. -/
theorem C3_nmpimd_init (P : ℕ) (hP : 2 ≤ P) :
    (∀ k : ℕ, lam P k = 4 * Real.sin (k * Real.pi / P) ^ 2) ∧
    lam P 0 = 0 ∧
    (P % 2 = 0 → lam P (P / 2) = 4) ∧
    (∀ j : Fin P, M_x2xp P ⟨0, by omega⟩ j = 1 / Real.sqrt P) ∧
    (P % 2 = 0 → ∀ j : Fin P,
      M_x2xp P ⟨P / 2, by omega⟩ j = 1 / Real.sqrt P * (-1) ^ (j : ℕ)) ∧
    (∀ k j : Fin P, 1 ≤ (k : ℕ) → 2 * (k : ℕ) < P →
      M_x2xp P k j = Real.sqrt (2 / P) * Real.cos (2 * Real.pi * k * j / P)) ∧
    (∀ k j : Fin P, P < 2 * (k : ℕ) →
      M_x2xp P k j = Real.sqrt (2 / P) * Real.sin (2 * Real.pi * k * j / P)) ∧
    M_xp2x P = Matrix.transpose (M_x2xp P) := by
  have hPR : (0 : ℝ) < P := by
    have : 0 < P := by omega
    exact_mod_cast this
  have hsplit : Real.sqrt (2 / P) = Real.sqrt 2 / Real.sqrt P :=
    Real.sqrt_div (by norm_num) P
  refine ⟨fun k => rfl, ?_, ?_, ?_, ?_, ?_, ?_, ?_⟩
  · simp [lam]
  · intro heven
    have hhalf : P = 2 * (P / 2) := by omega
    have hhne : ((P / 2 : ℕ) : ℝ) ≠ 0 := by
      have : P / 2 ≠ 0 := by omega
      exact Nat.cast_ne_zero.mpr this
    have harg : ((P / 2 : ℕ) : ℝ) * Real.pi / P = Real.pi / 2 := by
      have hcast : (P : ℝ) = 2 * ((P / 2 : ℕ) : ℝ) := by exact_mod_cast hhalf
      rw [hcast]
      field_simp
      ring
    unfold lam
    rw [harg, Real.sin_pi_div_two]
    norm_num
  · intro j
    simp [M_x2xp]
  · intro heven j
    have hne : P / 2 ≠ 0 := by omega
    have h2 : 2 * (P / 2) = P := by omega
    simp [M_x2xp, hne, h2]
  · intro k j h1 h2
    have h0 : ¬ (k : ℕ) = 0 := by omega
    have hne : ¬ 2 * (k : ℕ) = P := by omega
    have hc : (k : ℕ) < P / 2 + 1 := by omega
    simp only [M_x2xp, if_neg h0, if_neg hne, if_pos hc]
    rw [hsplit]
    ring
  · intro k j h2
    have h0 : ¬ (k : ℕ) = 0 := by omega
    have hne : ¬ 2 * (k : ℕ) = P := by omega
    have hc : ¬ (k : ℕ) < P / 2 + 1 := by omega
    simp only [M_x2xp, if_neg h0, if_neg hne, if_neg hc]
    rw [hsplit]
    ring
  · ext i j
    simp [M_xp2x]

/-- Witness for C3 at P = 4. -/
theorem C3_nmpimd_init_witness :
    (∀ k : ℕ, lam 4 k = 4 * Real.sin (k * Real.pi / 4) ^ 2) ∧
    lam 4 0 = 0 ∧
    (4 % 2 = 0 → lam 4 (4 / 2) = 4) ∧
    (∀ j : Fin 4, M_x2xp 4 ⟨0, by omega⟩ j = 1 / Real.sqrt 4) ∧
    (4 % 2 = 0 → ∀ j : Fin 4,
      M_x2xp 4 ⟨4 / 2, by omega⟩ j = 1 / Real.sqrt 4 * (-1) ^ (j : ℕ)) ∧
    (∀ k j : Fin 4, 1 ≤ (k : ℕ) → 2 * (k : ℕ) < 4 →
      M_x2xp 4 k j = Real.sqrt (2 / 4) * Real.cos (2 * Real.pi * k * j / 4)) ∧
    (∀ k j : Fin 4, 4 < 2 * (k : ℕ) →
      M_x2xp 4 k j = Real.sqrt (2 / 4) * Real.sin (2 * Real.pi * k * j / 4)) ∧
    M_xp2x 4 = Matrix.transpose (M_x2xp 4) :=
  C3_nmpimd_init 4 (by norm_num)

/-- Concrete parameter set: P = 4 replicas, dt = 1, all physical
constants 1, physical fmmode, obabo (the spec scenario P = 4, one
particle of mass 1, thermostat disabled). -/
noncomputable def p0 : LanParams :=
  ⟨4, 1, 1, 1, 1, 1, 1, Fmmode.physical, Integrator.obabo⟩

/-- The same concrete parameters with the normal fmmode convention. -/
noncomputable def pNormal : LanParams :=
  ⟨4, 1, 1, 1, 1, 1, 1, Fmmode.normal, Integrator.obabo⟩

/-- C1 (counterexample): the centroid free-drift of one A-step is
`x += dtv*v` with `dtv = 0.5*dt`, not `x += v*dt` as the claim states:
at dt = 1, x = 0, v = 1 the code produces x = 0.5 while the claim
predicts x = 0 + 1*dt = 1. -/
theorem C1_counterexample : (qc_step p0 0 (0, 1)).1 ≠ 0 + 1 * p0.dt := by
  simp [qc_step, dtv, p0]
  norm_num

/-- C1 (amended): for every non-centroid mode `w ≠ 0` one `a_step`
applies exactly the closed-form 2×2 rotation with θ = ω_k·dt/2, and the
centroid mode instead free-drifts x += v·(dt/2) (the half-timestep
`dtv`); in the spec scenario P = 4 the eigenvalues are [0, 2, 4, 2], so
the per-mode outputs match the closed form exactly (hence within 1e-12
absolute error). -/
theorem C1_a_step_rotation (p : LanParams) (w : ℕ) (hw : w ≠ 0) (x v : ℝ) :
    a_step p w (x, v)
      = (Real.cos (omega_k p w * p.dt / 2) * x
          + Real.sin (omega_k p w * p.dt / 2) / omega_k p w * v,
        -(omega_k p w) * Real.sin (omega_k p w * p.dt / 2) * x
          + Real.cos (omega_k p w * p.dt / 2) * v) ∧
    qc_step p 0 (x, v) = (x + v * (p.dt / 2), v) ∧
    lam 4 0 = 0 ∧ lam 4 1 = 2 ∧ lam 4 2 = 4 ∧ lam 4 3 = 2 := by
  have hangle : ∀ q : LanParams, ∀ u : ℕ,
      Lan_c q u = Real.cos (omega_k q u * q.dt / 2) ∧
      Lan_s q u = Real.sin (omega_k q u * q.dt / 2) := by
    intro q u
    rcases hf : q.fmmode with _ | _ <;>
      simp only [Lan_c, Lan_s, omega_k, hf] <;>
      constructor <;> congr 1 <;> ring
  obtain ⟨hc, hs⟩ := hangle p w
  have hlam1 : lam 4 1 = 2 := by
    have harg : ((1 : ℕ) : ℝ) * Real.pi / (4 : ℕ) = Real.pi / 4 := by
      push_cast
      ring
    rw [lam, harg, Real.sin_pi_div_four]
    rw [div_pow, Real.sq_sqrt (by norm_num : (0:ℝ) ≤ 2)]
    norm_num
  have hlam2 : lam 4 2 = 4 := by
    have harg : ((2 : ℕ) : ℝ) * Real.pi / (4 : ℕ) = Real.pi / 2 := by
      push_cast
      ring
    rw [lam, harg, Real.sin_pi_div_two]
    norm_num
  have hlam3 : lam 4 3 = 2 := by
    have harg : ((3 : ℕ) : ℝ) * Real.pi / (4 : ℕ) = Real.pi - Real.pi / 4 := by
      push_cast
      ring
    rw [lam, harg, Real.sin_pi_sub, Real.sin_pi_div_four]
    rw [div_pow, Real.sq_sqrt (by norm_num : (0:ℝ) ≤ 2)]
    norm_num
  refine ⟨?_, ?_, ?_, hlam1, hlam2, hlam3⟩
  · simp only [a_step, if_pos hw, hc, hs, Prod.mk.injEq]
    constructor <;> ring
  · rw [qc_step, if_pos rfl]
    simp only [dtv, Prod.mk.injEq]
    exact ⟨by ring, trivial⟩
  · simp [lam]

/-- Witness for the amended C1 at the concrete scenario parameters
(P = 4, dt = 1, mass 1), mode w = 1, state (x, v) = (1, 0). -/
theorem C1_a_step_rotation_witness :
    (a_step p0 1 (1, 0)
      = (Real.cos (omega_k p0 1 * p0.dt / 2) * 1
          + Real.sin (omega_k p0 1 * p0.dt / 2) / omega_k p0 1 * 0,
        -(omega_k p0 1) * Real.sin (omega_k p0 1 * p0.dt / 2) * 1
          + Real.cos (omega_k p0 1 * p0.dt / 2) * 0) ∧
    qc_step p0 0 (1, 0) = (1 + 0 * (p0.dt / 2), 0) ∧
    lam 4 0 = 0 ∧ lam 4 1 = 2 ∧ lam 4 2 = 4 ∧ lam 4 3 = 2) :=
  C1_a_step_rotation p0 1 (by norm_num) 1 0

/-- C4: one A-step on a non-centroid mode leaves the single-mode
harmonic energy 0.5·m·ω²·x² + 0.5·m·v² exactly unchanged (in real
arithmetic), for arbitrary x, v, mass m, timestep and ω = ω_k > 0. -/
theorem C4_a_step_energy (p : LanParams) (w : ℕ) (hw : w ≠ 0)
    (m x v : ℝ) (hω : 0 < omega_k p w) :
    0.5 * m * omega_k p w ^ 2 * (a_step p w (x, v)).1 ^ 2
      + 0.5 * m * (a_step p w (x, v)).2 ^ 2
      = 0.5 * m * omega_k p w ^ 2 * x ^ 2 + 0.5 * m * v ^ 2 := by
  have hcs : Real.sin (omega_k p w * p.dt / 2) ^ 2
      + Real.cos (omega_k p w * p.dt / 2) ^ 2 = 1 :=
    Real.sin_sq_add_cos_sq _
  have hangle : Lan_c p w = Real.cos (omega_k p w * p.dt / 2) ∧
      Lan_s p w = Real.sin (omega_k p w * p.dt / 2) := by
    rcases hf : p.fmmode with _ | _ <;>
      simp only [Lan_c, Lan_s, omega_k, hf] <;>
      constructor <;> congr 1 <;> ring
  obtain ⟨hc, hs⟩ := hangle
  have hωne : omega_k p w ≠ 0 := ne_of_gt hω
  simp only [a_step, if_pos hw, hc, hs]
  field_simp
  linear_combination
    (m * omega_k p w ^ 2 * (omega_k p w ^ 2 * x ^ 2 + v ^ 2)) / 2 * hcs

/-- Witness for C4 at the concrete normal-fmmode parameters, mode 1,
m = 1, (x, v) = (3, 5): the hypotheses w ≠ 0 and 0 < ω_1 hold there. -/
theorem C4_a_step_energy_witness :
    0.5 * 1 * omega_k pNormal 1 ^ 2 * (a_step pNormal 1 (3, 5)).1 ^ 2
      + 0.5 * 1 * (a_step pNormal 1 (3, 5)).2 ^ 2
      = 0.5 * 1 * omega_k pNormal 1 ^ 2 * 3 ^ 2 + 0.5 * 1 * 5 ^ 2 :=
  C4_a_step_energy pNormal 1 (by norm_num) 1 3 5
    (by simp [omega_k, omega_np, beta, KT, pNormal])

/-- C5: under PILE_L, each `o_step` velocity update on mode `w ≠ 0`
equals `c1_k·v + c2_k·√(1/(m·β_P))·ξ` with mode relaxation time
`τ_k = 1/(2·scale·ω_k)`, `c1_k = exp(−dt/(2·τ_k))` for the OBABO
half-step (`exp(−dt/τ_k)` for BAOAB) and `c2_k = √(1 − c1_k²)`. -/
theorem C5_o_step_pile (p : LanParams) (mvv2e : ℝ) (w : ℕ) (hw : w ≠ 0)
    (m v xi : ℝ) :
    tau_k p w = 1 / (2 * p.pilescale * omega_k p w) ∧
    (p.integrator = Integrator.obabo →
      o_step p mvv2e w m v xi
        = Real.exp (-p.dt / (2 * tau_k p w)) * v
          + Real.sqrt (1 - Real.exp (-p.dt / (2 * tau_k p w)) ^ 2)
            * Real.sqrt (1 / (m * beta_np_o p mvv2e)) * xi) ∧
    (p.integrator = Integrator.baoab →
      o_step p mvv2e w m v xi
        = Real.exp (-p.dt / tau_k p w) * v
          + Real.sqrt (1 - Real.exp (-p.dt / tau_k p w) ^ 2)
            * Real.sqrt (1 / (m * beta_np_o p mvv2e)) * xi) := by
  have htau : tau_k p w = 1 / (2 * p.pilescale * omega_k p w) := by
    rw [tau_k, if_neg hw]
    norm_num
    ring
  have hsq : Real.sqrt (1 / m / beta_np_o p mvv2e)
      = Real.sqrt (1 / (m * beta_np_o p mvv2e)) := by
    rw [div_div]
  refine ⟨htau, ?_, ?_⟩
  · intro hi
    have hc1 : c1_k p w = Real.exp (-p.dt / (2 * tau_k p w)) := by
      rw [c1_k, if_neg hw, hi]
      ring_nf
    rw [o_step, c2_k, if_neg hw, hc1, hsq]
    ring_nf
  · intro hi
    have hc1 : c1_k p w = Real.exp (-p.dt / tau_k p w) := by
      rw [c1_k, if_neg hw, hi]
      ring_nf
    rw [o_step, c2_k, if_neg hw, hc1, hsq]
    ring_nf

/-- Witness for C5 at the concrete parameters, mode 1, mvv2e = 1,
m = 2, v = 3, ξ = 5. -/
theorem C5_o_step_pile_witness :
    (tau_k p0 1 = 1 / (2 * p0.pilescale * omega_k p0 1) ∧
    (p0.integrator = Integrator.obabo →
      o_step p0 1 1 2 3 5
        = Real.exp (-p0.dt / (2 * tau_k p0 1)) * 3
          + Real.sqrt (1 - Real.exp (-p0.dt / (2 * tau_k p0 1)) ^ 2)
            * Real.sqrt (1 / (2 * beta_np_o p0 1)) * 5) ∧
    (p0.integrator = Integrator.baoab →
      o_step p0 1 1 2 3 5
        = Real.exp (-p0.dt / tau_k p0 1) * 3
          + Real.sqrt (1 - Real.exp (-p0.dt / tau_k p0 1) ^ 2)
            * Real.sqrt (1 / (2 * beta_np_o p0 1)) * 5)) :=
  C5_o_step_pile p0 1 1 (by norm_num) 2 3 5

lemma c1c2_norm_of_pos_of_le_one {a b : ℝ} (ha : 0 < a) (ha1 : a ≤ 1)
    (hb : b = Real.sqrt (1 - a * a)) : a ^ 2 + b ^ 2 = 1 := by
  have hnn : 0 ≤ 1 - a * a := by nlinarith
  rw [hb, Real.sq_sqrt hnn]
  ring

/-- C10 (implicit): the friction/noise pairs built by `Langevin_init`
satisfy 0 < c1_k ≤ 1 and c1_k² + c2_k² = 1 for every mode k < np — the
centroid pair (c1, c2) included — for both OBABO and BAOAB, whenever
dt > 0, tau > 0, pilescale > 0 and the physical constants are
positive. -/
theorem C10_friction_normalization (p : LanParams)
    (hdt : 0 < p.dt) (htau : 0 < p.tau) (hscale : 0 < p.pilescale)
    (hb : 0 < p.boltz) (hT : 0 < p.Lan_temp) (hh : 0 < p.hbar)
    (hnp : 0 < p.np) :
    (0 < c1 p ∧ c1 p ≤ 1 ∧ c1 p ^ 2 + c2 p ^ 2 = 1) ∧
    ∀ k < p.np, 0 < c1_k p k ∧ c1_k p k ≤ 1 ∧
      c1_k p k ^ 2 + c2_k p k ^ 2 = 1 := by
  have hKT : 0 < KT p := mul_pos hb hT
  have hbeta : 0 < beta p := by
    rw [beta]
    positivity
  have hωnp : 0 < omega_np p := by
    rw [omega_np]
    have : (0 : ℝ) < p.np := by exact_mod_cast hnp
    positivity
  have hγ : 0 < gamma p := by
    rw [gamma, if_pos htau]
    positivity
  have hc1pos : 0 < c1 p := by
    rcases hi : p.integrator with _ | _ <;> simp only [c1, hi] <;>
      exact Real.exp_pos _
  have hc1le : c1 p ≤ 1 := by
    rcases hi : p.integrator with _ | _ <;> simp only [c1, hi] <;>
      rw [Real.exp_le_one_iff] <;> nlinarith
  have hcent : 0 < c1 p ∧ c1 p ≤ 1 ∧ c1 p ^ 2 + c2 p ^ 2 = 1 :=
    ⟨hc1pos, hc1le, c1c2_norm_of_pos_of_le_one hc1pos hc1le rfl⟩
  refine ⟨hcent, ?_⟩
  intro k hk
  by_cases hk0 : k = 0
  · subst hk0
    simpa only [c1_k, c2_k, if_pos rfl] using hcent
  · have hωk : 0 < omega_k p k := by
      rcases hf : p.fmmode with _ | _
      · simp only [omega_k, hf]
        have hlam : 0 < lam p.np k := by
          rw [lam]
          have hsin : 0 < Real.sin (k * Real.pi / p.np) := by
            apply Real.sin_pos_of_pos_of_lt_pi
            · have hkR : (0 : ℝ) < (k : ℝ) := by
                exact_mod_cast Nat.pos_of_ne_zero hk0
              have hnpR : (0 : ℝ) < (p.np : ℝ) := by exact_mod_cast hnp
              positivity
            · have hkR : (k : ℝ) < (p.np : ℝ) := by exact_mod_cast hk
              have hnpR : (0 : ℝ) < (p.np : ℝ) := by exact_mod_cast hnp
              rw [div_lt_iff₀ hnpR]
              have hπ : 0 < Real.pi := Real.pi_pos
              nlinarith
          positivity
        have := Real.sqrt_pos.mpr hlam
        positivity
      · simpa only [omega_k, hf] using hωnp
    have hτk : 0 < tau_k p k := by
      rw [tau_k, if_neg hk0]
      positivity
    have hc1kpos : 0 < c1_k p k := by
      rw [c1_k, if_neg hk0]
      rcases hi : p.integrator with _ | _ <;> simp only [hi] <;>
        exact Real.exp_pos _
    have hc1kle : c1_k p k ≤ 1 := by
      rw [c1_k, if_neg hk0]
      rcases hi : p.integrator with _ | _ <;> simp only [hi] <;>
        rw [Real.exp_le_one_iff] <;>
        · apply div_nonpos_of_nonpos_of_nonneg
          · nlinarith
          · linarith
    refine ⟨hc1kpos, hc1kle, ?_⟩
    exact c1c2_norm_of_pos_of_le_one hc1kpos hc1kle (by rw [c2_k, if_neg hk0])

/-- Witness for C10 at the concrete physical-fmmode parameters. -/
theorem C10_friction_normalization_witness :
    ((0 < c1 p0 ∧ c1 p0 ≤ 1 ∧ c1 p0 ^ 2 + c2 p0 ^ 2 = 1) ∧
    ∀ k < p0.np, 0 < c1_k p0 k ∧ c1_k p0 k ≤ 1 ∧
      c1_k p0 k ^ 2 + c2_k p0 k ^ 2 = 1) :=
  C10_friction_normalization p0 (by norm_num [p0]) (by norm_num [p0])
    (by norm_num [p0]) (by norm_num [p0]) (by norm_num [p0])
    (by norm_num [p0]) (by norm_num [p0])

/-- C6: with the BZP barostat, `press_v_step` first updates the piston
velocity on every process by
`vw += dtv·[3·(V·np·(p_cv−Pext))/nktv2p + 3·Vcoeff/beta_np]/W`, then
adds the force-dependent correction accumulated only on the centroid
replica (summed over its `nprocs` shards by `MPI_Allreduce` on `world`),
and finally broadcasts `vw` from universe rank 0, so afterwards every
process of every replica holds the same value; likewise `press_o_step`
leaves every process with the identical piston velocity. -/
theorem C6_press_v_step (c : PressCfg) (q : Proc) (c1v c2v r1 : ℝ) :
    press_v_step c q
      = c.vw
        + pdtv c * (3 * (c.volume * c.np * (c.p_cv - c.Pext)) / c.nktv2p
            + 3 * (c.Vcoeff / c.beta_np)) / c.W
        + ∑ r ∈ Finset.range c.nprocs, dvw_proc c r ∧
    (∀ q₂ : Proc, press_v_step c q = press_v_step c q₂) ∧
    (∀ q₂ : Proc, press_o_step c c1v c2v r1 q = press_o_step c c1v c2v r1 q₂) := by
  refine ⟨?_, fun q₂ => rfl, fun q₂ => rfl⟩
  show vw_before_bcast c ⟨0, 0⟩ = _
  rw [vw_before_bcast, if_pos rfl, vw_after_kin, dvw]
  ring

/-- C7: the `fixcom` keyword handler is inverted with respect to the
spec: the value `"yes"` yields `removecomflag = 0`, under which the
integrator call sites `if(removecomflag) remove_com_motion()` perform no
center-of-mass removal, while the value `"no"` yields
`removecomflag = 1`, under which the subtraction runs — and only on the
centroid replica (`iworld = 0`); non-centroid replicas are untouched
even then. -/
theorem C7_fixcom_inverted :
    fixcom_parse "yes" 1 = 0 ∧
    fixcom_parse "no" 0 = 1 ∧
    (∀ iworld vcm v, com_substep (fixcom_parse "yes" 1) iworld vcm v = v) ∧
    (∀ vcm v, com_substep (fixcom_parse "no" 0) 0 vcm v
        = v.map (fun vi => vi - vcm)) ∧
    (∀ w vcm v, w ≠ 0 → remove_com_motion w vcm v = v) := by
  refine ⟨rfl, rfl, fun iworld vcm v => rfl, fun vcm v => rfl, ?_⟩
  intro w vcm v hw
  rw [remove_com_motion, if_neg hw]

/-- C8 (counterexample): in `comm_exec`, a locally owned tag matched by
no peer shard of a remote replica raises no error at all — the slot of
that replica's bead buffer silently keeps its previous (stale) content.
Concretely: requester replica 0 owns tag 1 with value 10, remote
replica 1 has one shard holding only tag 7, the stale buffer holds 99
everywhere; the exchanged buffer entry for replica 1, slot 0 is the
stale 99, not an error. -/
theorem C8_counterexample :
    comm_exec (ExchCfg.mk 2 0 [(1, (10 : ℤ))]
        (fun _ => [[(7, (20 : ℤ))]]) (fun _ _ => 99)) 1 0 = 99 ∧
    alookup ([[(7, (20 : ℤ))]].flatten) 1 = none := by
  constructor <;> rfl

/-- C8 (amended): if a locally owned tag is matched by no peer shard of
remote replica `u`, `comm_exec` silently leaves that slot of
`buf_beads[u]` at its previous (stale) content — no error is raised and
the entry is not rewritten; a matched tag receives the peer's value. -/
theorem C8_comm_exec_unmatched {α : Type} (c : ExchCfg α) (u i : ℕ)
    (t : ℕ) (x : α) (hu : u ≠ c.me) (hown : c.own.get? i = some (t, x)) :
    (alookup (c.remote u).flatten t = none → comm_exec c u i = c.stale u i) ∧
    (∀ y : α, alookup (c.remote u).flatten t = some y → comm_exec c u i = y) := by
  constructor
  · intro hnone
    rw [comm_exec, if_neg hu, hown]
    simp only [hnone]
  · intro y hsome
    rw [comm_exec, if_neg hu, hown]
    simp only [hsome]

/-- Witness for the amended C8 on the concrete two-replica
configuration (unmatched tag 1 → stale 99 kept; a matched tag 7 in a
second configuration receives the peer value 20). -/
theorem C8_comm_exec_unmatched_witness :
    (alookup ([[(7, (20 : ℤ))]].flatten) 1 = none →
      comm_exec (ExchCfg.mk 2 0 [(1, (10 : ℤ))]
        (fun _ => [[(7, (20 : ℤ))]]) (fun _ _ => 99)) 1 0
        = (fun _ _ => (99 : ℤ)) 1 0) ∧
    (∀ y : ℤ, alookup ([[(7, (20 : ℤ))]].flatten) 1 = some y →
      comm_exec (ExchCfg.mk 2 0 [(1, (10 : ℤ))]
        (fun _ => [[(7, (20 : ℤ))]]) (fun _ _ => 99)) 1 0 = y) :=
  C8_comm_exec_unmatched
    (ExchCfg.mk 2 0 [(1, (10 : ℤ))] (fun _ => [[(7, (20 : ℤ))]])
      (fun _ _ => 99)) 1 0 1 10 (by norm_num) rfl

/-- C9: `compute_tote` returns kinetic + potential + spring energy, and
`compute_totenthalpy` adds the piston kinetic energy plus
`Pext·(V − V0)` in the MTTK branch, or plus `Pext·V/nktv2p` minus the
volume-log correction `Vcoeff·kB·T·log V` in the BZP branch. -/
theorem C9_energy_outputs (ke pe se W vw : ℝ) (np : ℕ)
    (Pext volume nktv2p Vcoeff kBT vol0 : ℝ) :
    compute_tote ke pe se = ke + pe + se ∧
    compute_totenthalpy Barostat.BZP (compute_tote ke pe se) W vw np
        Pext volume nktv2p Vcoeff kBT vol0
      = compute_tote ke pe se + 0.5 * W * vw * vw / np
        + (Pext * volume / nktv2p - Vcoeff * kBT * Real.log volume) ∧
    compute_totenthalpy Barostat.MTTK (compute_tote ke pe se) W vw np
        Pext volume nktv2p Vcoeff kBT vol0
      = compute_tote ke pe se + 1.5 * W * vw * vw / np
        + Pext * (volume - vol0) := by
  refine ⟨rfl, ?_, ?_⟩
  · rw [compute_totenthalpy]
    ring
  · rw [compute_totenthalpy]

end FixDPPimd
